import Mathlib

/- A shallow embedding of the MOSES behavioral-score layer
   (opencog/learning/moses/moses/scoring.cc), with proofs of the
   scoring contracts.

   Conventions used throughout:
   * score_t / contin_t (C float / double) are modelled by ℚ; every fact
     proved below is an order or equality fact that float rounding does
     not affect at the inputs considered.
   * the C library log is external to this translation unit; functions
     built on it take the log function as an explicit argument, and
     theorems assume only its order contract (strictly monotone on the
     positive rationals, log 1 = 0, log 0 = -∞).  IEEE -∞ is modelled by
     ⊥ in WithBot ℚ.
   * compressed-table counters (Counter.h, outside this translation
     unit) are modelled from the spec as association lists
     value ↦ occurrence count, with non-negative integer counts.
-/

namespace Scoring

/-! ### Counters (data model)

Modelled from the spec: an observation-table entry maps each output
value to its occurrence count; the counts are non-negative integers
(C `unsigned`), and `total_count` is their sum. -/

/-- Modelled from the spec: `Counter::total_count()` — the sum of the
occurrence counts of a compressed-table row (Counter.h is external). -/
def total_count {α : Type} (c : List (α × ℕ)) : ℕ :=
  (c.map Prod.snd).sum

/-- Modelled from the spec: `Counter::get(v)` — the occurrence count of
output value `v` in the row, `0` when absent. -/
def counter_get {α : Type} [DecidableEq α] (c : List (α × ℕ)) (v : α) : ℕ :=
  ((c.filter (fun p => decide (p.1 = v))).map Prod.snd).sum

/-! ### enum_table_bscore (claim C1) -/

/-- The maximum-count loop of `enum_table_bscore::best_possible_bscore()`:
`unsigned most = 0; for (..) if (most < it->second) most = it->second;`. -/
def most_count {α : Type} (c : List (α × ℕ)) : ℕ :=
  c.foldl (fun most p => if most < p.2 then p.2 else most) 0

/-- 32-bit unsigned subtraction: the value of the C expression `a - b`
when both operands have type `unsigned` (wraps modulo 2^32). -/
def usub32 (a b : ℕ) : ℕ :=
  (((a : ℤ) - (b : ℤ)) % (2 ^ 32 : ℤ)).toNat

/-- Row value of `enum_table_bscore::best_possible_bscore()`:
`score_t (most - c.total_count())`.  `most` is declared `unsigned`, so
the subtraction is performed in unsigned arithmetic and only then
converted to score_t. -/
def enum_best_possible_row {α : Type} (c : List (α × ℕ)) : ℚ :=
  (usub32 (most_count c) (total_count c) : ℚ)

/-- `enum_table_bscore::best_possible_bscore()`: one component per
compressed row. -/
def enum_table_best_possible_bscore {ι α : Type} (ctable : List (ι × List (α × ℕ))) :
    List ℚ :=
  ctable.map (fun r => enum_best_possible_row r.2)

/-- Row value of `enum_table_bscore::operator()` for a candidate whose
output on the row is `out`: `score_t sc = score_t(c.get(out)); sc -=
score_t(c.total_count());` — here each operand is converted to score_t
before subtracting, so the result is the intended signed value. -/
def enum_row_score {α : Type} [DecidableEq α] (c : List (α × ℕ)) (out : α) : ℚ :=
  (counter_get c out : ℚ) - (total_count c : ℚ)

/-! ### enum_graded_bscore::graded_complexity (claim C2)

A cond-chain candidate `cond p₁ c₁ p₂ c₂ ... else_clause` is represented
by the list of tree complexities of its predicates `p₁, p₂, ...` (the
siblings visited by `predicate = next(predicate, 2)`) together with the
tree complexity of the trailing else clause. -/

/-- The accumulation loop of `enum_graded_bscore::graded_complexity`:
`cpxy += weight * tree_complexity(predicate)`, advancing with
`weight /= grading` after every non-terminal branch, and terminating on
the else clause. -/
def graded_complexity_aux (grading : ℚ) : ℚ → List ℕ → ℕ → ℚ
  | weight, [], dflt => weight * (dflt : ℚ)
  | weight, p :: ps, dflt =>
      weight * (p : ℚ) + graded_complexity_aux grading (weight / grading) ps dflt

/-- `enum_graded_bscore::graded_complexity` on a cond chain whose
predicate complexities are `preds` and whose else-clause complexity is
`dflt`; the initial weight is 1. -/
def graded_complexity (grading : ℚ) (preds : List ℕ) (dflt : ℕ) : ℚ :=
  graded_complexity_aux grading 1 preds dflt

/-- The claim's reading of `graded_complexity` (refinement comparison):
branch `i` weighted by `grading ^ i`, i.e. `weight *= grading` per
branch, as the score loop of `operator()` does. -/
def graded_complexity_claimed (grading : ℚ) (preds : List ℕ) (dflt : ℕ) : ℚ :=
  (∑ i in Finset.range preds.length, grading ^ i * (preds.getD i 0 : ℚ))
    + grading ^ preds.length * (dflt : ℚ)

/-! ### discriminating_bscore::get_threshold_penalty (claim C4) -/

/-- The `dst` computation of `discriminating_bscore::get_threshold_penalty`:
`dst = 0; if (value < min) dst = 1 - value/min; if (max < value)
dst = (value - max)/(1 - max);` (both tests performed in sequence, as in
the source). -/
def threshold_dst (mn mx value : ℚ) : ℚ :=
  let dst1 : ℚ := if value < mn then 1 - value / mn else 0
  if mx < value then (value - mx) / (1 - mx) else dst1

/-- `discriminating_bscore::get_threshold_penalty`:
`hardness * log(1.0 - dst)`.  The C library `log` is passed as an
argument with IEEE -∞ modelled by `⊥`; the multiplication by `hardness`
is mapped over the finite case (for the asserted `hardness > 0`,
IEEE gives `hardness * -∞ = -∞ = ⊥`, as `WithBot.map` does). -/
def get_threshold_penalty (logf : ℚ → WithBot ℚ) (mn mx hardness value : ℚ) :
    WithBot ℚ :=
  WithBot.map (fun l => hardness * l) (logf (1 - threshold_dst mn mx value))

/-- A concrete function satisfying the order contract of the C library
`log` (strictly monotone on positives, `log 1 = 0`, `log 0 = -∞`), used
to instantiate witnesses. -/
def logq (q : ℚ) : WithBot ℚ :=
  if 0 < q then ((q - 1 : ℚ) : WithBot ℚ) else ⊥

/-! ### Complexity-coefficient calibration (claim C8) -/

/-- `discrete_complexity_coef(alphabet_size, p)`:
`-log(alphabet_size) / log(p/(1-p))`, with the C library `log` passed as
an argument (it is only ever evaluated away from its singularities by
the guarded caller below). -/
def discrete_complexity_coef (logf : ℚ → ℚ) (alphabet_size : ℕ) (p : ℚ) : ℚ :=
  -logf (alphabet_size : ℚ) / logf (p / (1 - p))

/-- `bscore_base::set_complexity_coef(alphabet_size, p)`: returns the
`(occam, complexity_coef)` pair the method stores.  `complexity_coef`
starts at 0; `occam = (p > 0.0f && p < 0.5f)`; the coefficient is
computed only when `occam` holds. -/
def set_complexity_coef (logf : ℚ → ℚ) (alphabet_size : ℕ) (p : ℚ) : Bool × ℚ :=
  if 0 < p ∧ p < 1/2 then (true, discrete_complexity_coef logf alphabet_size p)
  else (false, 0)

/-- A concrete plain-ℚ function satisfying the order contract of `log`
away from 0 (strictly monotone, value 0 at 1), used to instantiate
witnesses. -/
def logl (q : ℚ) : ℚ := q - 1

/-! ### discretize_contin_bscore::class_idx (claim C5) -/

/-- `discretize_contin_bscore::class_idx_within(v, l_idx, u_idx)`:
binary search over the sorted thresholds, with midpoint
`m_idx = l_idx + (u_idx - l_idx) / 2` and pivot `thresholds[m_idx - 1]`.
The C++ recursion is reached only with `l_idx < u_idx`, where the base
case below coincides with the C++ `u_idx - l_idx == 1` test. -/
def class_idx_within (thresholds : List ℚ) (v : ℚ) (l u : ℕ) : ℕ :=
  if u - l ≤ 1 then l
  else if v < thresholds.getD (l + (u - l) / 2 - 1) 0 then
    class_idx_within thresholds v l (l + (u - l) / 2)
  else
    class_idx_within thresholds v (l + (u - l) / 2) u
termination_by u - l
decreasing_by
  · omega
  · omega

/-- `discretize_contin_bscore::class_idx(v)`: 0 below the first
threshold, the number of thresholds at or above the last, otherwise the
binary search over `[1, size)`. -/
def class_idx (thresholds : List ℚ) (v : ℚ) : ℕ :=
  if v < thresholds.getD 0 0 then 0
  else if thresholds.getD (thresholds.length - 1) 0 ≤ v then thresholds.length
  else class_idx_within thresholds v 1 thresholds.length

/-! ### interesting_predicate_bscore (claims C3, C6)

A contin-output compressed table is a list of rows (input, counter);
the counter maps each contin output value to its occurrence count (an
association list representing the `std::map`).  A candidate enters only
through its boolean value `f` on each row's input, compared with the
target polarity. -/

/-- `counter[k] += n` on a map-style association list — the
accumulation `counter[get_contin(v.first)] += v.second` performed by
the `interesting_predicate_bscore` constructor (`operator[]`
default-inserts 0). -/
def assocAdd : List (ℚ × ℕ) → ℚ → ℕ → List (ℚ × ℕ)
  | [], k, n => [(k, n)]
  | (k', n') :: t, k, n =>
      if k = k' then (k', n' + n) :: t else (k', n') :: assocAdd t k n

/-- `counter[k] = n` on a map-style association list — the assignment
`pred_counter[get_contin(mv.first)] = mv.second` performed by
`interesting_predicate_bscore::operator()`. -/
def assocSet : List (ℚ × ℕ) → ℚ → ℕ → List (ℚ × ℕ)
  | [], k, n => [(k, n)]
  | (k', n') :: t, k, n =>
      if k = k' then (k', n) :: t else (k', n') :: assocSet t k n

/-- Modelled from the spec: the worst-score sentinel (`worst_score`,
the most negative representable score; defined outside this translation
unit — its exact magnitude is immaterial to the claims proved here). -/
def worst_score : ℚ := -340282350000000000000000000000000000000

/-- The unconditioned output histogram built by the
`interesting_predicate_bscore` constructor: for every row and every
(value, count) pair of its counter, `counter[value] += count`. -/
def interesting_counter {ι : Type} (ctable : List (ι × List (ℚ × ℕ))) :
    List (ℚ × ℕ) :=
  ctable.foldl (fun m row => row.2.foldl (fun m' vc => assocAdd m' vc.1 vc.2) m) []

/-- The predicate-conditioned counter built by
`interesting_predicate_bscore::operator()`: for every row whose
candidate value equals the target polarity and every (value, count)
pair of its counter, `pred_counter[value] = count` (assignment, exactly
as in the source). -/
def pred_counter {ι : Type} (positive : Bool) (f : ι → Bool)
    (ctable : List (ι × List (ℚ × ℕ))) : List (ℚ × ℕ) :=
  ctable.foldl
    (fun m row =>
      if f row.1 = positive then
        row.2.foldl (fun m' vc => assocSet m' vc.1 vc.2) m
      else m) []

/-- `interesting_predicate_bscore::get_activation_penalty`:
`log(pow(1 - dst, penalty))` with
`dst = max(max(min_act - act, 0)/min_act, max(act - max_act, 0)/(1 - max_act))`;
the composite libm call `log ∘ pow` is passed as `powLog`. -/
def interesting_activation_penalty (powLog : ℚ → ℚ → ℚ)
    (min_activation max_activation penalty activation : ℚ) : ℚ :=
  powLog
    (1 - max (max (min_activation - activation) 0 / min_activation)
             (max (activation - max_activation) 0 / (1 - max_activation)))
    penalty

/-- `interesting_predicate_bscore::operator()`.  The external
statistics (KLD decomposition and scalar, weighted skewness,
standardized Mann–Whitney U — opencog/util, outside this translation
unit) enter as oracle functions of the counters they are fed; `cpx`
abstracts `tree_complexity(tr)`.  Returns the pair (behavioral-score
components, complexity penalty). -/
def interesting_op {ι : Type}
    (kld_w skewness_w stdU_w skew_U_w : ℚ)
    (min_activation max_activation penalty : ℚ)
    (positive abs_skewness decompose_kld : Bool)
    (kldsD : List (ℚ × ℕ) → List ℚ) (kldsS : List (ℚ × ℕ) → ℚ)
    (skewF : List (ℚ × ℕ) → ℚ) (mwuF : List (ℚ × ℕ) → List (ℚ × ℕ) → ℚ)
    (powLog : ℚ → ℚ → ℚ) (occam : Bool) (complexity_coef cpx : ℚ)
    (ctable : List (ι × List (ℚ × ℕ))) (f : ι → Bool) : List ℚ × ℚ :=
  let counter := interesting_counter ctable
  let pdf := if 0 < kld_w then counter else []
  let skewness := skewF pdf
  let total : ℕ := (ctable.map (fun r => total_count r.2)).sum
  let actives : ℕ :=
    ((ctable.filter (fun r => f r.1 = positive)).map (fun r => total_count r.2)).sum
  let pc := pred_counter positive f ctable
  if 1 < pc.length then
    let bs1 : List ℚ :=
      if 0 < kld_w then
        if decompose_kld then (kldsD pc).map (fun x => kld_w * x)
        else [kld_w * kldsS pc]
      else []
    let diff_skewness : ℚ :=
      if 0 < skewness_w ∨ 0 < skew_U_w then skewF pc - skewness else 0
    let val_skewness : ℚ := if abs_skewness then |diff_skewness| else diff_skewness
    let bs2 : List ℚ := if 0 < skewness_w then [skewness_w * val_skewness] else []
    let stdU : ℚ := if 0 < stdU_w ∨ 0 < skew_U_w then mwuF counter pc else 0
    let bs3 : List ℚ := if 0 < stdU_w then [stdU_w * |stdU|] else []
    let bs4 : List ℚ := if 0 < skew_U_w then [skew_U_w * stdU * diff_skewness] else []
    let activation : ℚ := (actives : ℚ) / (total : ℚ)
    let act_pen := interesting_activation_penalty powLog min_activation
        max_activation penalty activation
    (bs1 ++ bs2 ++ bs3 ++ bs4 ++ [act_pen],
      if occam then cpx * complexity_coef else 0)
  else ([worst_score], 0)

/-! ### precision_bscore (claims C7, C9)

A boolean-output compressed table is a list of rows; each row holds its
boolean input vector and the counts of true and false outputs.  A
candidate enters through its boolean value `f` on each row's input
(`eval_binding(vct.first, tr) == id::logical_true`). -/

/-- One compressed row of a boolean-output table: input vector, count
of true outputs, count of false outputs. -/
structure BRow : Type where
  input : List Bool
  tcount : ℕ
  fcount : ℕ

/-- `c.total_count()` of a boolean row. -/
def row_total (r : BRow) : ℕ := r.tcount + r.fcount

/-- `precision_bscore`'s `sum_outputs` for boolean tables:
`c.get(bool_to_vertex(positive))`. -/
def precision_sum_outputs (positive : Bool) (r : BRow) : ℚ :=
  if positive then (r.tcount : ℚ) else (r.fcount : ℚ)

/-- Modelled from the spec: `ctable.uncompressed_size()` — the total
count of the compressed table, the sum of the rows' total counts
(table.h is external). -/
def ctable_usize (ctable : List BRow) : ℕ := (ctable.map row_total).sum

/-- One `std::multimap` insert: ordered insertion placed after existing
entries of equal key. -/
def insertLe {α : Type} (key : α → ℚ) (x : α) : List α → List α
  | [] => [x]
  | y :: ys => if key x < key y then x :: y :: ys else y :: insertLe key x ys

/-- The contents of a `std::multimap` built by successive inserts:
ascending by key, insertion order preserved among entries of equal
key. -/
def sortAsc {α : Type} (key : α → ℚ) (l : List α) : List α :=
  l.foldl (fun acc x => insertLe key x acc) []

/-- The selection loop of `gen_canonical_best_candidate`: walk the
rows (already placed in descending-precision order), accumulate
`active += total`, emit the row's clause, and break as soon as
`ctable_usize * min_activation <= active`. -/
def pickRows (thresh : ℚ) : ℕ → List BRow → List BRow
  | _, [] => []
  | acc, r :: rs =>
      r :: (if thresh ≤ ((acc + row_total r : ℕ) : ℚ) then []
            else pickRows thresh (acc + row_total r) rs)

/-- `precision_bscore::gen_canonical_best_candidate()`: rows are placed
in a multimap keyed by per-row precision `sum_outputs(c) / total`,
iterated in reverse (descending); each selected row contributes the
conjunctive clause of its input literals (positive literal where the
input is true, negated otherwise), here represented by the row's input
vector itself; the clause list represents the disjunction. -/
def gen_canonical_best_candidate (positive : Bool) (min_activation : ℚ)
    (ctable : List BRow) : List (List Bool) :=
  (pickRows ((ctable_usize ctable : ℚ) * min_activation) 0
      ((sortAsc (fun r => precision_sum_outputs positive r / (row_total r : ℚ))
          ctable).reverse)).map BRow.input

/-- Evaluation of one conjunctive clause on an input vector: literal
`i` requires `x[i]` to equal the clause row's input at `i`. -/
def eval_clause (clause x : List Bool) : Bool :=
  decide (∀ i, i < clause.length → x.getD i false = clause.getD i false)

/-- Evaluation of the disjunction-of-conjunctions candidate. -/
def eval_candidate (clauses : List (List Bool)) (x : List Bool) : Bool :=
  clauses.any (fun cl => eval_clause cl x)

/-- The uncompressed count of the table rows on which a candidate
evaluates to true. -/
def active_uncompressed_count (ctable : List BRow) (clauses : List (List Bool)) :
    ℕ :=
  (ctable.map (fun r => if eval_candidate clauses r.input then row_total r else 0)).sum

/-- The worst-decile averaging loop of `precision_bscore::operator()`:
`worst_count += pr.second; avg += pr.first; if (worst_count > n_deciles)
break;` returning the accumulated (sum, count). -/
def wd_scan : ℕ → ℚ → ℕ → List (ℚ × ℕ) → ℚ × ℕ
  | _, acc, cnt, [] => (acc, cnt)
  | nd, acc, cnt, p :: t =>
      if nd < cnt + p.2 then (acc + p.1, cnt + p.2)
      else wd_scan nd (acc + p.1) (cnt + p.2) t

/-- `precision_bscore::operator()` on a boolean-output table.  For
boolean tables `max_output = 1` (set by the constructor) and
`sum_outputs ≥ 0`, but the worst-decile machinery is translated as in
the source.  Division of `avg_worst_deciles` by a zero `worst_count`
yields 0 here where IEEE yields NaN: both fail the following
`avg_worst_deciles < 0` test, so the returned score is unchanged.  The
activation penalty is `penalty * log(1 - dst)` with the same `dst` form
as the threshold penalty (`get_activation_penalty`). -/
def precision_op (logf : ℚ → WithBot ℚ) (positive worst_norm : Bool)
    (min_activation max_activation penalty : ℚ) (occam : Bool)
    (complexity_coef cpx : ℚ) (ctable : List BRow) (f : List Bool → Bool) :
    List (WithBot ℚ) × ℚ :=
  let activeRows := ctable.filter (fun r => f r.input)
  let active : ℕ := (activeRows.map row_total).sum
  let sao : ℚ := (activeRows.map (precision_sum_outputs positive)).sum
  let worst_deciles : List (ℚ × ℕ) :=
    sortAsc Prod.fst
      ((activeRows.filter (fun r => decide (precision_sum_outputs positive r < 0))).map
        (fun r => (precision_sum_outputs positive r, row_total r)))
  let n_deciles : ℕ := active / 10
  let avg_worst_deciles : ℚ :=
    if worst_norm ∧ 0 < sao then
      (wd_scan n_deciles 0 0 worst_deciles).1
        / ((wd_scan n_deciles 0 0 worst_deciles).2 : ℚ)
    else 0
  let max_output : ℚ := 1
  let precision0 : ℚ := if 0 < active then (sao / (active : ℚ)) / max_output else 1
  let precision : ℚ :=
    if avg_worst_deciles < 0 then precision0 / (-avg_worst_deciles) else precision0
  let activation : ℚ := (active : ℚ) / (ctable_usize ctable : ℚ)
  ([(precision : WithBot ℚ),
    get_threshold_penalty logf min_activation max_activation penalty activation],
   if occam then cpx * complexity_coef else 0)

/-! ### discriminator / recall_bscore / prerec_bscore (claim C10)

For boolean-output tables the discriminator's `sum_outputs` is
`c.get(id::logical_true)`, so `sum_pos = tcount` and
`sum_neg = totalc - sum_pos`. -/

/-- `discriminator::d_counts`, zero-initialized by its constructor. -/
structure d_counts : Type where
  true_positive_sum : ℚ
  false_positive_sum : ℚ
  positive_count : ℚ
  true_negative_sum : ℚ
  false_negative_sum : ℚ
  negative_count : ℚ

/-- One row of `discriminator::count(tr)`: classify the row by the
candidate's truth value and accumulate. -/
def discriminator_step (f : List Bool → Bool) (ctr : d_counts) (r : BRow) :
    d_counts :=
  let sum_pos : ℚ := (r.tcount : ℚ)
  let totalc : ℕ := row_total r
  let sum_neg : ℚ := (totalc : ℚ) - sum_pos
  if f r.input then
    { ctr with
        true_positive_sum := ctr.true_positive_sum + sum_pos
        false_positive_sum := ctr.false_positive_sum + sum_neg
        positive_count := ctr.positive_count + (totalc : ℚ) }
  else
    { ctr with
        true_negative_sum := ctr.true_negative_sum + sum_neg
        false_negative_sum := ctr.false_negative_sum + sum_pos
        negative_count := ctr.negative_count + (totalc : ℚ) }

/-- `discriminator::count(tr)` over a boolean-output table. -/
def discriminator_count (ctable : List BRow) (f : List Bool → Bool) : d_counts :=
  ctable.foldl (discriminator_step f) ⟨0, 0, 0, 0, 0, 0⟩

/-- A float quotient with non-finite results marked: `none` stands for
the IEEE outcome of a zero denominator (0/0 = NaN in every case the
theorems below reach, since the sums involved are non-negative). -/
def qdiv (a b : ℚ) : Option ℚ := if b = 0 then none else some (a / b)

/-- The precision quotient computed by `recall_bscore::operator()` and
`prerec_bscore::operator()`:
`true_positive_sum / (true_positive_sum + false_positive_sum)`, with no
guard on the denominator. -/
def dc_precision (ctr : d_counts) : Option ℚ :=
  qdiv ctr.true_positive_sum (ctr.true_positive_sum + ctr.false_positive_sum)

/-- The recall quotient computed by the same operators:
`true_positive_sum / (true_positive_sum + false_negative_sum)`, with no
guard on the denominator. -/
def dc_recall (ctr : d_counts) : Option ℚ :=
  qdiv ctr.true_positive_sum (ctr.true_positive_sum + ctr.false_negative_sum)

/-- `get_threshold_penalty` fed a possibly-NaN value: both band
comparisons are false on NaN, so `dst` keeps its initial 0 and the
penalty is `hardness * log(1 - 0)`. -/
def threshold_penalty_nan (logf : ℚ → WithBot ℚ) (mn mx hardness : ℚ) :
    Option ℚ → WithBot ℚ
  | none => WithBot.map (fun l => hardness * l) (logf (1 - 0))
  | some v => get_threshold_penalty logf mn mx hardness v

/-- The components `recall_bscore::operator()` produces: the recall
score, the threshold penalty on precision, and the Occam penalty. -/
structure recall_pbs : Type where
  recall_value : Option ℚ
  precision_penalty : WithBot ℚ
  complexity_penalty : ℚ

/-- `recall_bscore::operator()` on a boolean-output table. -/
def recall_op (logf : ℚ → WithBot ℚ) (mn mx hardness : ℚ) (occam : Bool)
    (complexity_coef cpx : ℚ) (ctable : List BRow) (f : List Bool → Bool) :
    recall_pbs :=
  { recall_value := dc_recall (discriminator_count ctable f)
    precision_penalty :=
      threshold_penalty_nan logf mn mx hardness
        (dc_precision (discriminator_count ctable f))
    complexity_penalty := if occam then cpx * complexity_coef else 0 }

/-- The components `prerec_bscore::operator()` produces: the precision
score, the threshold penalty on recall, and the Occam penalty. -/
structure prerec_pbs : Type where
  precision : Option ℚ
  recall_penalty : WithBot ℚ
  complexity_penalty : ℚ

/-- `prerec_bscore::operator()` on a boolean-output table. -/
def prerec_op (logf : ℚ → WithBot ℚ) (mn mx hardness : ℚ) (occam : Bool)
    (complexity_coef cpx : ℚ) (ctable : List BRow) (f : List Bool → Bool) :
    prerec_pbs :=
  { precision := dc_precision (discriminator_count ctable f)
    recall_penalty :=
      threshold_penalty_nan logf mn mx hardness
        (dc_recall (discriminator_count ctable f))
    complexity_penalty := if occam then cpx * complexity_coef else 0 }

/-! ### Theorems for C1 and C2 -/

/-- C1: the claim fails on the code.  On the compressed row
`{value 0 ↦ 1, value 1 ↦ 1}` (two conflicting outputs, total count 2),
`best_possible_bscore()` computes the unsigned difference `1 - 2`, which
wraps to `2^32 - 1 = 4294967295`, a huge positive component — not the
claimed strictly negative `max_count - total_count = -1`.  By contrast
`operator()` converts to score_t before subtracting, so every candidate
scores `-1` on this row, bounded above by the claimed `-1`. -/
theorem enum_best_possible_row_unsigned_wrap :
    enum_table_best_possible_bscore [((0 : ℕ), [((0 : ℕ), 1), (1, 1)])]
        = [(4294967295 : ℚ)] ∧
      (0 : ℚ) < 4294967295 ∧
      enum_row_score [((0 : ℕ), 1), (1, 1)] 0 = -1 ∧
      enum_row_score [((0 : ℕ), 1), (1, 1)] 1 = -1 := by
  refine ⟨?_, by norm_num, ?_, ?_⟩
  · simp [enum_table_best_possible_bscore, enum_best_possible_row, usub32,
      most_count, total_count]
  · simp [enum_row_score, counter_get, total_count]
    norm_num
  · simp [enum_row_score, counter_get, total_count]
    norm_num

/-- Helper for C2: closed form of the graded-complexity loop for an
arbitrary entry weight. -/
theorem graded_complexity_aux_eq (grading : ℚ) :
    ∀ (preds : List ℕ) (weight : ℚ) (dflt : ℕ),
      graded_complexity_aux grading weight preds dflt
        = weight * ((∑ i in Finset.range preds.length, grading⁻¹ ^ i * (preds.getD i 0 : ℚ))
            + grading⁻¹ ^ preds.length * (dflt : ℚ)) := by
  intro preds
  induction preds with
  | nil =>
      intro weight dflt
      simp [graded_complexity_aux]
  | cons p ps ih =>
      intro weight dflt
      rw [graded_complexity_aux, ih]
      rw [List.length_cons, Finset.sum_range_succ']
      simp only [List.getD_cons_succ, List.getD_cons_zero, pow_zero, one_mul,
        pow_succ]
      rw [div_eq_mul_inv]
      have hs : (∑ x in Finset.range ps.length, grading⁻¹ ^ x * grading⁻¹ * (ps.getD x 0 : ℚ))
          = grading⁻¹ * ∑ x in Finset.range ps.length, grading⁻¹ ^ x * (ps.getD x 0 : ℚ) := by
        rw [Finset.mul_sum]
        exact Finset.sum_congr rfl (fun x _ => by ring)
      rw [hs]
      ring

/-- C2 counterexample: for the cond chain with predicate complexities
`[0, 1]`, else-clause complexity `0` and `grading = 1/2`,
`graded_complexity` returns `2` — branch 1 is weighted by
`grading⁻¹ = 2`, not the claimed `grading^1 = 1/2` (which would give
`1/2`): the geometric weights grow with branch depth instead of
shrinking. -/
theorem graded_complexity_counterexample :
    graded_complexity (1/2) [0, 1] 0 = 2 ∧
      graded_complexity_claimed (1/2) [0, 1] 0 = 1/2 ∧
      ¬ (2 : ℚ) = 1/2 := by
  refine ⟨?_, ?_, by norm_num⟩
  · simp [graded_complexity, graded_complexity_aux]
  · simp [graded_complexity_claimed, Finset.sum_range_succ]

/-- C2 amended: `graded_complexity` weights the tree complexity of
branch `i` by `grading⁻¹ ^ i` (the loop divides the weight by `grading`
at each branch, `weight /= grading`), and for `0 < grading < 1` these
weights are strictly increasing in the branch index: complexity deep in
the chain is punished more, not less (the source comment itself calls
this "retro-graded"). -/
theorem graded_complexity_amended (grading : ℚ) (preds : List ℕ) (dflt : ℕ)
    (h0 : 0 < grading) (h1 : grading < 1) :
    graded_complexity grading preds dflt
        = (∑ i in Finset.range preds.length, grading⁻¹ ^ i * (preds.getD i 0 : ℚ))
            + grading⁻¹ ^ preds.length * (dflt : ℚ)
      ∧ StrictMono (fun i : ℕ => grading⁻¹ ^ i) := by
  constructor
  · rw [graded_complexity, graded_complexity_aux_eq, one_mul]
  · have hinv : 1 < grading⁻¹ := (one_lt_inv₀ h0).mpr h1
    intro i j hij
    exact pow_lt_pow_right₀ hinv hij

/-- Witness for C2's amended theorem at a concrete chain. -/
theorem graded_complexity_amended_witness :
    graded_complexity (1/2) [2, 3] 1
        = (∑ i in Finset.range ([2, 3] : List ℕ).length,
              ((1/2 : ℚ))⁻¹ ^ i * ((([2, 3] : List ℕ).getD i 0 : ℕ) : ℚ))
            + ((1/2 : ℚ))⁻¹ ^ (([2, 3] : List ℕ).length) * ((1 : ℕ) : ℚ)
      ∧ StrictMono (fun i : ℕ => ((1/2 : ℚ))⁻¹ ^ i) :=
  graded_complexity_amended (1/2) [2, 3] 1 (by norm_num) (by norm_num)

/-! ### Theorems for C4 (threshold penalty) -/

theorem logq_one : logq 1 = 0 := by
  simp [logq]

theorem logq_zero : logq 0 = ⊥ := by
  simp [logq]

theorem logq_mono : ∀ a b : ℚ, 0 < a → a < b → logq a < logq b := by
  intro a b ha hab
  have hb : 0 < b := lt_trans ha hab
  simp only [logq, if_pos ha, if_pos hb]
  exact WithBot.coe_lt_coe.mpr (sub_lt_sub_right hab 1)

theorem logq_fin : ∀ a : ℚ, 0 < a → logq a ≠ ⊥ := by
  intro a ha
  simp [logq, ha]

/-- Helper: `hardness * log` (with `hardness > 0`) is strictly monotone
on the non-negative arguments, `⊥` included. -/
theorem map_log_lt (logf : ℚ → WithBot ℚ) (hardness : ℚ) (hh : 0 < hardness)
    (hlog0 : logf 0 = ⊥)
    (hmono : ∀ a b : ℚ, 0 < a → a < b → logf a < logf b)
    (hfin : ∀ a : ℚ, 0 < a → logf a ≠ ⊥)
    {x y : ℚ} (hx : 0 ≤ x) (hxy : x < y) :
    WithBot.map (fun l => hardness * l) (logf x)
      < WithBot.map (fun l => hardness * l) (logf y) := by
  have hy : 0 < y := lt_of_le_of_lt hx hxy
  obtain ⟨ly, hly⟩ := WithBot.ne_bot_iff_exists.mp (hfin y hy)
  rcases eq_or_lt_of_le hx with h0 | h0
  · rw [← h0, hlog0, ← hly, WithBot.map_bot, WithBot.map_coe]
    exact WithBot.bot_lt_coe _
  · obtain ⟨lx, hlx⟩ := WithBot.ne_bot_iff_exists.mp (hfin x h0)
    have h := hmono x y h0 hxy
    rw [← hlx, ← hly] at h ⊢
    rw [WithBot.map_coe, WithBot.map_coe]
    exact WithBot.coe_lt_coe.mpr
      (mul_lt_mul_of_pos_left (WithBot.coe_lt_coe.mp h) hh)

/-- Helper: the mapped penalty of `log 1` is exactly 0. -/
theorem map_log_one (logf : ℚ → WithBot ℚ) (hardness : ℚ) (hlog1 : logf 1 = 0) :
    WithBot.map (fun l => hardness * l) (logf 1) = 0 := by
  rw [hlog1, ← WithBot.coe_zero, WithBot.map_coe, mul_zero]

/-- Helper: the mapped penalty of `log x` is strictly negative for
`0 ≤ x < 1`. -/
theorem map_log_neg (logf : ℚ → WithBot ℚ) (hardness : ℚ) (hh : 0 < hardness)
    (hlog1 : logf 1 = 0) (hlog0 : logf 0 = ⊥)
    (hmono : ∀ a b : ℚ, 0 < a → a < b → logf a < logf b)
    (hfin : ∀ a : ℚ, 0 < a → logf a ≠ ⊥)
    {x : ℚ} (hx0 : 0 ≤ x) (hx1 : x < 1) :
    WithBot.map (fun l => hardness * l) (logf x) < 0 := by
  have h := map_log_lt logf hardness hh hlog0 hmono hfin hx0 hx1
  rw [map_log_one logf hardness hlog1] at h
  exact h

/-- Helper: inside the band the dst is 0. -/
theorem threshold_dst_band {mn mx v : ℚ} (h1 : mn ≤ v) (h2 : v ≤ mx) :
    threshold_dst mn mx v = 0 := by
  simp [threshold_dst, not_lt.mpr h1, not_lt.mpr h2]

/-- Helper: below the band, `1 - dst = v / mn`. -/
theorem threshold_dst_below {mn mx v : ℚ} (hvmn : v < mn) (hmnmx : mn ≤ mx) :
    1 - threshold_dst mn mx v = v / mn := by
  have h : ¬ mx < v := not_lt.mpr (le_trans (le_of_lt hvmn) hmnmx)
  simp only [threshold_dst, if_pos hvmn, if_neg h]
  ring

/-- Helper: above the band, `1 - dst = (1 - v) / (1 - mx)`. -/
theorem threshold_dst_above {mn mx v : ℚ} (hmx : mx < v) (hmx1 : mx < 1) :
    1 - threshold_dst mn mx v = (1 - v) / (1 - mx) := by
  have h : (1 : ℚ) - mx ≠ 0 := ne_of_gt (by linarith)
  simp only [threshold_dst, if_pos hmx]
  field_simp

/-- C4: with `0 < min_threshold ≤ max_threshold` and `hardness > 0`
(the constructor's assertion), and the C `log` satisfying its order
contract, `get_threshold_penalty` is zero exactly on the band
`[min_threshold, max_threshold]`, strictly negative everywhere else in
the `[0, 1]` domain, and strictly more negative the farther the value
lies from the band on either side. -/
theorem get_threshold_penalty_spec (logf : ℚ → WithBot ℚ) (mn mx hardness : ℚ)
    (hmn : 0 < mn) (hmnmx : mn ≤ mx) (hh : 0 < hardness)
    (hlog1 : logf 1 = 0) (hlog0 : logf 0 = ⊥)
    (hmono : ∀ a b : ℚ, 0 < a → a < b → logf a < logf b)
    (hfin : ∀ a : ℚ, 0 < a → logf a ≠ ⊥) :
    (∀ v : ℚ, mn ≤ v → v ≤ mx → get_threshold_penalty logf mn mx hardness v = 0) ∧
    (∀ v : ℚ, 0 ≤ v → v ≤ 1 → v < mn ∨ mx < v →
        get_threshold_penalty logf mn mx hardness v < 0) ∧
    (∀ v w : ℚ, 0 ≤ v → v < w → w < mn →
        get_threshold_penalty logf mn mx hardness v
          < get_threshold_penalty logf mn mx hardness w) ∧
    (∀ v w : ℚ, mx < v → v < w → w ≤ 1 →
        get_threshold_penalty logf mn mx hardness w
          < get_threshold_penalty logf mn mx hardness v) := by
  refine ⟨?_, ?_, ?_, ?_⟩
  · intro v h1 h2
    rw [get_threshold_penalty, threshold_dst_band h1 h2, sub_zero]
    exact map_log_one logf hardness hlog1
  · intro v h0 h1' hcase
    rcases hcase with hvmn | hmxv
    · rw [get_threshold_penalty, threshold_dst_below hvmn hmnmx]
      exact map_log_neg logf hardness hh hlog1 hlog0 hmono hfin
        (div_nonneg h0 hmn.le) ((div_lt_one hmn).mpr hvmn)
    · have hmx1 : mx < 1 := lt_of_lt_of_le hmxv h1'
      rw [get_threshold_penalty, threshold_dst_above hmxv hmx1]
      exact map_log_neg logf hardness hh hlog1 hlog0 hmono hfin
        (div_nonneg (by linarith) (by linarith))
        ((div_lt_one (by linarith)).mpr (by linarith))
  · intro v w hv0 hvw hwmn
    rw [get_threshold_penalty, get_threshold_penalty,
      threshold_dst_below (lt_trans hvw hwmn) hmnmx, threshold_dst_below hwmn hmnmx]
    exact map_log_lt logf hardness hh hlog0 hmono hfin
      (div_nonneg hv0 hmn.le) ((div_lt_div_iff_of_pos_right hmn).mpr hvw)
  · intro v w hmxv hvw hw1
    have hmx1 : mx < 1 := by linarith
    rw [get_threshold_penalty, get_threshold_penalty,
      threshold_dst_above (lt_trans hmxv hvw) hmx1, threshold_dst_above hmxv hmx1]
    exact map_log_lt logf hardness hh hlog0 hmono hfin
      (div_nonneg (by linarith) (by linarith))
      ((div_lt_div_iff_of_pos_right (by linarith : (0 : ℚ) < 1 - mx)).mpr (by linarith))

/-- Witness for C4 at `min = 1/4`, `max = 1/2`, `hardness = 2` with a
concrete log satisfying the contract. -/
theorem get_threshold_penalty_spec_witness :
    (∀ v : ℚ, (1/4 : ℚ) ≤ v → v ≤ 1/2 →
        get_threshold_penalty logq (1/4) (1/2) 2 v = 0) ∧
    (∀ v : ℚ, 0 ≤ v → v ≤ 1 → v < 1/4 ∨ (1/2 : ℚ) < v →
        get_threshold_penalty logq (1/4) (1/2) 2 v < 0) ∧
    (∀ v w : ℚ, 0 ≤ v → v < w → w < 1/4 →
        get_threshold_penalty logq (1/4) (1/2) 2 v
          < get_threshold_penalty logq (1/4) (1/2) 2 w) ∧
    (∀ v w : ℚ, (1/2 : ℚ) < v → v < w → w ≤ 1 →
        get_threshold_penalty logq (1/4) (1/2) 2 w
          < get_threshold_penalty logq (1/4) (1/2) 2 v) :=
  get_threshold_penalty_spec logq (1/4) (1/2) 2 (by norm_num) (by norm_num)
    (by norm_num) logq_one logq_zero logq_mono logq_fin

/-! ### Theorems for C8 (complexity coefficient) -/

theorem logl_one : logl 1 = 0 := by
  norm_num [logl]

theorem logl_mono : ∀ a b : ℚ, 0 < a → a < b → logl a < logl b := by
  intro a b _ h
  simpa [logl] using h

/-- C8: for `alphabet_size ≥ 2` and the C `log` satisfying its order
contract: for `0 < p < 1/2` the method enables the Occam penalty and
stores the finite, strictly positive coefficient
`-log(alphabet_size) / log(p / (1 - p))`; at the singularities `p = 0`,
`p = 1/2`, and for `p` outside `[0, 1]`, it disables the penalty and
stores 0. -/
theorem set_complexity_coef_spec (logf : ℚ → ℚ) (alphabet_size : ℕ)
    (ha : 2 ≤ alphabet_size)
    (hlog1 : logf 1 = 0)
    (hmono : ∀ a b : ℚ, 0 < a → a < b → logf a < logf b) :
    (∀ p : ℚ, 0 < p → p < 1/2 →
      (set_complexity_coef logf alphabet_size p).1 = true ∧
      (set_complexity_coef logf alphabet_size p).2
        = -logf (alphabet_size : ℚ) / logf (p / (1 - p)) ∧
      0 < (set_complexity_coef logf alphabet_size p).2) ∧
    (∀ p : ℚ, p = 0 ∨ p = 1/2 ∨ p < 0 ∨ 1 < p →
      (set_complexity_coef logf alphabet_size p).1 = false ∧
      (set_complexity_coef logf alphabet_size p).2 = 0) := by
  constructor
  · intro p hp0 hp12
    have hcond : 0 < p ∧ p < 1/2 := ⟨hp0, hp12⟩
    have h1a : (1 : ℚ) < (alphabet_size : ℚ) := by
      exact_mod_cast Nat.lt_of_lt_of_le Nat.one_lt_two ha
    have hla : 0 < logf (alphabet_size : ℚ) := by
      have h := hmono 1 (alphabet_size : ℚ) one_pos h1a
      rwa [hlog1] at h
    have hx0 : 0 < p / (1 - p) := div_pos hp0 (by linarith)
    have hx1 : p / (1 - p) < 1 := (div_lt_one (by linarith)).mpr (by linarith)
    have hlx : logf (p / (1 - p)) < 0 := by
      have h := hmono (p / (1 - p)) 1 hx0 hx1
      rwa [hlog1] at h
    refine ⟨?_, ?_, ?_⟩
    · simp only [set_complexity_coef]
      rw [if_pos hcond]
    · simp only [set_complexity_coef]
      rw [if_pos hcond]
      simp only [discrete_complexity_coef]
    · simp only [set_complexity_coef]
      rw [if_pos hcond]
      simp only [discrete_complexity_coef]
      rw [div_pos_iff]
      exact Or.inr ⟨neg_lt_zero.mpr hla, hlx⟩
  · intro p hp
    have hcond : ¬ (0 < p ∧ p < 1/2) := by
      rintro ⟨c1, c2⟩
      rcases hp with rfl | rfl | h | h <;> linarith
    simp only [set_complexity_coef]
    rw [if_neg hcond]
    exact ⟨rfl, rfl⟩

/-- Witness for C8 at `alphabet_size = 2` with a concrete log
satisfying the contract. -/
theorem set_complexity_coef_spec_witness :
    (∀ p : ℚ, 0 < p → p < 1/2 →
      (set_complexity_coef logl 2 p).1 = true ∧
      (set_complexity_coef logl 2 p).2
        = -logl ((2 : ℕ) : ℚ) / logl (p / (1 - p)) ∧
      0 < (set_complexity_coef logl 2 p).2) ∧
    (∀ p : ℚ, p = 0 ∨ p = 1/2 ∨ p < 0 ∨ 1 < p →
      (set_complexity_coef logl 2 p).1 = false ∧
      (set_complexity_coef logl 2 p).2 = 0) :=
  set_complexity_coef_spec logl 2 (by norm_num) logl_one logl_mono

/-! ### Theorems for C5 (class_idx) -/

/-- Helper: an in-bounds `getD` entry is a member of the list. -/
theorem getD_mem_of_lt : ∀ (l : List ℚ) (j : ℕ), j < l.length → l.getD j 0 ∈ l := by
  intro l
  induction l with
  | nil => intro j h; simp at h
  | cons a t ih =>
      intro j h
      cases j with
      | zero => simp
      | succ n =>
          simp only [List.getD_cons_succ]
          exact List.mem_cons_of_mem _ (ih n (by simpa using h))

/-- Helper: in a sorted list, `getD` is monotone in the index. -/
theorem sorted_getD_mono :
    ∀ (l : List ℚ), l.Sorted (· ≤ ·) →
      ∀ i j : ℕ, i ≤ j → j < l.length → l.getD i 0 ≤ l.getD j 0 := by
  intro l
  induction l with
  | nil => intro _ i j _ h; simp at h
  | cons a t ih =>
      intro hs i j hij hj
      rcases List.sorted_cons.mp hs with ⟨ha, ht⟩
      cases i with
      | zero =>
          cases j with
          | zero => simp
          | succ n =>
              simp only [List.getD_cons_zero, List.getD_cons_succ]
              exact ha _ (getD_mem_of_lt t n (by simpa using hj))
      | succ m =>
          cases j with
          | zero => omega
          | succ n =>
              simp only [List.getD_cons_succ]
              exact ih ht m n (by omega) (by simpa using hj)

/-- Helper: loop invariant of the binary search — called on a bracket
`thresholds[l-1] ≤ v < thresholds[u-1]` with `1 ≤ l < u ≤ size`, it
returns the index `i` of the bracket of width one around `v`. -/
theorem class_idx_within_spec (th : List ℚ) (v : ℚ) :
    ∀ n l u, u - l = n → 1 ≤ l → l < u → u ≤ th.length →
      th.getD (l - 1) 0 ≤ v → v < th.getD (u - 1) 0 →
      l ≤ class_idx_within th v l u ∧ class_idx_within th v l u < u ∧
        th.getD (class_idx_within th v l u - 1) 0 ≤ v ∧
        v < th.getD (class_idx_within th v l u) 0 := by
  intro n
  induction n using Nat.strong_induction_on with
  | _ n ih =>
    intro l u hn h1 hlu hulen hlo hhi
    rw [class_idx_within]
    by_cases hbase : u - l ≤ 1
    · rw [if_pos hbase]
      have hu : u = l + 1 := by omega
      refine ⟨le_refl l, by omega, hlo, ?_⟩
      have : u - 1 = l := by omega
      rwa [this] at hhi
    · rw [if_neg hbase]
      have hlm : l < l + (u - l) / 2 := by omega
      have hmu : l + (u - l) / 2 < u := by omega
      by_cases hv : v < th.getD (l + (u - l) / 2 - 1) 0
      · rw [if_pos hv]
        obtain ⟨a, b, c, d⟩ :=
          ih ((l + (u - l) / 2) - l) (by omega) l (l + (u - l) / 2) rfl h1 hlm
            (by omega) hlo hv
        exact ⟨a, lt_trans b hmu, c, d⟩
      · rw [if_neg hv]
        push_neg at hv
        obtain ⟨a, b, c, d⟩ :=
          ih (u - (l + (u - l) / 2)) (by omega) (l + (u - l) / 2) u rfl (by omega)
            hmu hulen hv hhi
        exact ⟨le_trans (le_of_lt hlm) a, b, c, d⟩

/-- Helper: `class_idx` returns the split point of the sorted threshold
list at `v` — all thresholds strictly before it are ≤ v, all from it on
are > v. -/
theorem class_idx_split (th : List ℚ) (hs : th.Sorted (· ≤ ·)) (hne : th ≠ [])
    (v : ℚ) :
    class_idx th v ≤ th.length ∧
      (∀ j, j < class_idx th v → th.getD j 0 ≤ v) ∧
      (∀ j, class_idx th v ≤ j → j < th.length → v < th.getD j 0) := by
  have hlen : 0 < th.length := List.length_pos.mpr hne
  rw [class_idx]
  by_cases h0 : v < th.getD 0 0
  · rw [if_pos h0]
    refine ⟨Nat.zero_le _, fun j hj => absurd hj (Nat.not_lt_zero j), ?_⟩
    intro j _ hj
    exact lt_of_lt_of_le h0 (sorted_getD_mono th hs 0 j (Nat.zero_le j) hj)
  · rw [if_neg h0]
    push_neg at h0
    by_cases hlast : th.getD (th.length - 1) 0 ≤ v
    · rw [if_pos hlast]
      refine ⟨le_refl _, ?_, fun j hj hj2 => absurd hj (by omega)⟩
      intro j hj
      exact le_trans (sorted_getD_mono th hs j (th.length - 1) (by omega) (by omega))
        hlast
    · rw [if_neg hlast]
      push_neg at hlast
      have hlen2 : 2 ≤ th.length := by
        by_contra hc
        have h1 : th.length - 1 = 0 := by omega
        rw [h1] at hlast
        exact absurd (lt_of_le_of_lt h0 hlast) (lt_irrefl _)
      obtain ⟨a, b, c, d⟩ :=
        class_idx_within_spec th v (th.length - 1) 1 th.length (by omega)
          (le_refl 1) (by omega) (le_refl _) (by simpa using h0) hlast
      refine ⟨le_of_lt b, ?_, ?_⟩
      · intro j hj
        exact le_trans
          (sorted_getD_mono th hs j (class_idx_within th v 1 th.length - 1)
            (by omega) (by omega)) c
      · intro j hij hj
        exact lt_of_lt_of_le d
          (sorted_getD_mono th hs (class_idx_within th v 1 th.length) j hij hj)

/-- C5: for every non-empty sorted threshold list, `class_idx` is
monotone non-decreasing in its input and agrees with the linear-scan
bucket lookup: 0 below the first threshold, the number of thresholds at
or above the last (a value equal to a threshold goes to the upper
bucket), and otherwise the unique index `i` with
`thresholds[i-1] ≤ v < thresholds[i]`. -/
theorem class_idx_spec (th : List ℚ) (hne : th ≠ []) (hs : th.Sorted (· ≤ ·)) :
    (∀ v w : ℚ, v ≤ w → class_idx th v ≤ class_idx th w) ∧
    (∀ v : ℚ, v < th.getD 0 0 → class_idx th v = 0) ∧
    (∀ v : ℚ, th.getD (th.length - 1) 0 ≤ v → class_idx th v = th.length) ∧
    (∀ v : ℚ, th.getD 0 0 ≤ v → v < th.getD (th.length - 1) 0 →
        0 < class_idx th v ∧ class_idx th v < th.length ∧
        th.getD (class_idx th v - 1) 0 ≤ v ∧ v < th.getD (class_idx th v) 0 ∧
        ∀ j, 0 < j → j < th.length → th.getD (j - 1) 0 ≤ v → v < th.getD j 0 →
          j = class_idx th v) := by
  have hlen : 0 < th.length := List.length_pos.mpr hne
  refine ⟨?_, ?_, ?_, ?_⟩
  · intro v w hvw
    by_contra hc
    push_neg at hc
    obtain ⟨lev, bv, cv⟩ := class_idx_split th hs hne v
    obtain ⟨lew, bw, cw⟩ := class_idx_split th hs hne w
    have h1 : th.getD (class_idx th w) 0 ≤ v := bv (class_idx th w) hc
    have h2 : w < th.getD (class_idx th w) 0 := cw (class_idx th w) (le_refl _) (by omega)
    linarith
  · intro v hv
    rw [class_idx, if_pos hv]
  · intro v hv
    have h0 : ¬ v < th.getD 0 0 := not_lt.mpr
      (le_trans (sorted_getD_mono th hs 0 (th.length - 1) (by omega) (by omega)) hv)
    rw [class_idx, if_neg h0, if_pos hv]
  · intro v h0 hlast
    obtain ⟨lev, b, c⟩ := class_idx_split th hs hne v
    have hi0 : 0 < class_idx th v := by
      by_contra hc
      push_neg at hc
      have := c 0 (by omega) hlen
      exact absurd (lt_of_le_of_lt h0 this) (lt_irrefl _)
    have hilen : class_idx th v < th.length := by
      rcases lt_or_eq_of_le lev with h | h
      · exact h
      · exfalso
        have := b (th.length - 1) (by omega)
        exact absurd (lt_of_le_of_lt this hlast) (lt_irrefl _)
    refine ⟨hi0, hilen, b (class_idx th v - 1) (by omega),
      c (class_idx th v) (le_refl _) hilen, ?_⟩
    intro j hj0 hjlen hjlo hjhi
    by_contra hc
    rcases Nat.lt_or_ge j (class_idx th v) with h | h
    · exact absurd (lt_of_le_of_lt (b j h) hjhi) (lt_irrefl _)
    · have hj2 : class_idx th v ≤ j - 1 := by omega
      have := c (j - 1) hj2 (by omega)
      exact absurd (lt_of_le_of_lt hjlo this) (lt_irrefl _)

/-- Witness for C5 at the sorted threshold list `[1, 3]`. -/
theorem class_idx_spec_witness :
    (∀ v w : ℚ, v ≤ w → class_idx [1, 3] v ≤ class_idx [1, 3] w) ∧
    (∀ v : ℚ, v < ([1, 3] : List ℚ).getD 0 0 → class_idx [1, 3] v = 0) ∧
    (∀ v : ℚ, ([1, 3] : List ℚ).getD (([1, 3] : List ℚ).length - 1) 0 ≤ v →
        class_idx [1, 3] v = ([1, 3] : List ℚ).length) ∧
    (∀ v : ℚ, ([1, 3] : List ℚ).getD 0 0 ≤ v →
        v < ([1, 3] : List ℚ).getD (([1, 3] : List ℚ).length - 1) 0 →
        0 < class_idx [1, 3] v ∧ class_idx [1, 3] v < ([1, 3] : List ℚ).length ∧
        ([1, 3] : List ℚ).getD (class_idx [1, 3] v - 1) 0 ≤ v ∧
        v < ([1, 3] : List ℚ).getD (class_idx [1, 3] v) 0 ∧
        ∀ j, 0 < j → j < ([1, 3] : List ℚ).length →
          ([1, 3] : List ℚ).getD (j - 1) 0 ≤ v → v < ([1, 3] : List ℚ).getD j 0 →
          j = class_idx [1, 3] v) :=
  class_idx_spec [1, 3] (by simp) (by norm_num [List.sorted_cons])

/-! ### Theorems for C3 and C6 (interesting predicate) -/

/-- C3: code bug — evaluation at a failing input.  Two active rows (the
candidate is true on both, target polarity positive) both carry the
output value 1, with counts 2 and 3.  The claim (mirroring the
constructor's `+=` accumulation, shown on the same rows) requires the
conditioned count of value 1 to be 2 + 3 = 5; `operator()`'s assignment
`pred_counter[...] = mv.second` overwrites instead, leaving 3. -/
theorem pred_counter_overwrites :
    pred_counter true (fun _ => true) [((0 : ℕ), [((1 : ℚ), 2)]), (1, [(1, 3)])]
        = [(1, 3)] ∧
      interesting_counter [((0 : ℕ), [((1 : ℚ), 2)]), (1, [(1, 3)])] = [(1, 5)] ∧
      counter_get (pred_counter true (fun _ => true)
          [((0 : ℕ), [((1 : ℚ), 2)]), (1, [(1, 3)])]) 1 = 3 ∧
      (([((0 : ℕ), [((1 : ℚ), 2)]), (1, [(1, 3)])].map
          (fun r => counter_get r.2 (1 : ℚ))).sum = 5) ∧
      ¬ (3 : ℕ) = 5 := by
  refine ⟨?_, ?_, ?_, ?_, by decide⟩ <;> decide

/-- Helper for C6: setting the only occurring key keeps the counter a
singleton on that key. -/
theorem assocSet_single (v0 : ℚ) (n : ℕ) :
    ∀ m : List (ℚ × ℕ), (m = [] ∨ ∃ c, m = [(v0, c)]) →
      assocSet m v0 n = [(v0, n)] := by
  intro m hm
  rcases hm with rfl | ⟨c, rfl⟩
  · rfl
  · simp [assocSet]

/-- Helper for C6: folding `assocSet` over entries that all carry the
key `v0` preserves the singleton invariant. -/
theorem assocSet_fold_single (v0 : ℚ) :
    ∀ (entries : List (ℚ × ℕ)), (∀ vc ∈ entries, vc.1 = v0) →
      ∀ m : List (ℚ × ℕ), (m = [] ∨ ∃ c, m = [(v0, c)]) →
        (entries.foldl (fun m' vc => assocSet m' vc.1 vc.2) m = [] ∨
          ∃ c, entries.foldl (fun m' vc => assocSet m' vc.1 vc.2) m = [(v0, c)]) := by
  intro entries
  induction entries with
  | nil => intro _ m hm; simpa using hm
  | cons vc t ih =>
      intro hall m hm
      have hk : vc.1 = v0 := hall vc (List.mem_cons_self vc t)
      have h2 : assocSet m vc.1 vc.2 = [(v0, vc.2)] := by
        rw [hk]
        exact assocSet_single v0 vc.2 m hm
      simp only [List.foldl_cons]
      exact ih (fun x hx => hall x (List.mem_cons_of_mem vc hx))
        (assocSet m vc.1 vc.2) (Or.inr ⟨vc.2, h2⟩)

/-- Helper for C6: if every active row's counter only carries values
equal to `v0`, the conditioned counter is empty or a singleton. -/
theorem pred_counter_single {ι : Type} (positive : Bool) (f : ι → Bool)
    (v0 : ℚ) :
    ∀ (ctable : List (ι × List (ℚ × ℕ))),
      (∀ row ∈ ctable, f row.1 = positive → ∀ vc ∈ row.2, vc.1 = v0) →
      ∀ m : List (ℚ × ℕ), (m = [] ∨ ∃ c, m = [(v0, c)]) →
        (ctable.foldl
            (fun m' row =>
              if f row.1 = positive then
                row.2.foldl (fun m'' vc => assocSet m'' vc.1 vc.2) m'
              else m') m = [] ∨
          ∃ c, ctable.foldl
            (fun m' row =>
              if f row.1 = positive then
                row.2.foldl (fun m'' vc => assocSet m'' vc.1 vc.2) m'
              else m') m = [(v0, c)]) := by
  intro ctable
  induction ctable with
  | nil => intro _ m hm; simpa using hm
  | cons row t ih =>
      intro hall m hm
      simp only [List.foldl_cons]
      by_cases hrow : f row.1 = positive
      · rw [if_pos hrow]
        exact ih (fun x hx hfx => hall x (List.mem_cons_of_mem row hx) hfx)
          _ (assocSet_fold_single v0 row.2
              (hall row (List.mem_cons_self row t) hrow) m hm)
      · rw [if_neg hrow]
        exact ih (fun x hx hfx => hall x (List.mem_cons_of_mem row hx) hfx) m hm

/-- C6: when the active partition of the table carries at most one
distinct output value, `interesting_predicate_bscore::operator()`
returns exactly one component — the worst-score sentinel — with no
KLD/skewness/U components, no activation penalty and no complexity
penalty, for every setting of the weights, flags and external
statistics. -/
theorem interesting_op_degenerate {ι : Type}
    (kld_w skewness_w stdU_w skew_U_w min_activation max_activation penalty : ℚ)
    (positive abs_skewness decompose_kld : Bool)
    (kldsD : List (ℚ × ℕ) → List ℚ) (kldsS : List (ℚ × ℕ) → ℚ)
    (skewF : List (ℚ × ℕ) → ℚ) (mwuF : List (ℚ × ℕ) → List (ℚ × ℕ) → ℚ)
    (powLog : ℚ → ℚ → ℚ) (occam : Bool) (complexity_coef cpx : ℚ)
    (ctable : List (ι × List (ℚ × ℕ))) (f : ι → Bool)
    (hdeg : ∃ v0 : ℚ, ∀ row ∈ ctable, f row.1 = positive →
        ∀ vc ∈ row.2, vc.1 = v0) :
    interesting_op kld_w skewness_w stdU_w skew_U_w min_activation max_activation
        penalty positive abs_skewness decompose_kld kldsD kldsS skewF mwuF powLog
        occam complexity_coef cpx ctable f = ([worst_score], 0) := by
  obtain ⟨v0, hv0⟩ := hdeg
  have hpc : ¬ 1 < (pred_counter positive f ctable).length := by
    have h := pred_counter_single positive f v0 ctable hv0 [] (Or.inl rfl)
    rw [pred_counter]
    rcases h with h | ⟨c, h⟩ <;> rw [h] <;> simp
  simp only [interesting_op]
  rw [if_neg hpc]

/-- Witness for C6 on a concrete two-row table whose rows all carry the
single output value 2, with all weights enabled and concrete oracles. -/
theorem interesting_op_degenerate_witness :
    interesting_op 1 1 1 1 (1/2) (3/4) 2 true true true
        (fun _ => [1]) (fun _ => 0) (fun _ => 0) (fun _ _ => 0) (fun _ _ => 0)
        true 1 5 [((0 : ℕ), [((2 : ℚ), 3)]), (1, [(2, 4)])] (fun _ => true)
      = ([worst_score], 0) :=
  interesting_op_degenerate 1 1 1 1 (1/2) (3/4) 2 true true true
    (fun _ => [1]) (fun _ => 0) (fun _ => 0) (fun _ _ => 0) (fun _ _ => 0)
    true 1 5 [((0 : ℕ), [((2 : ℚ), 3)]), (1, [(2, 4)])] (fun _ => true)
    ⟨2, by decide⟩

/-! ### Theorems for C7 (canonical best candidate) and C9 (vacuous precision) -/

/-- Helper: one multimap insert permutes to consing. -/
theorem insertLe_perm {α : Type} (key : α → ℚ) (x : α) :
    ∀ l : List α, (insertLe key x l).Perm (x :: l) := by
  intro l
  induction l with
  | nil => exact List.Perm.refl _
  | cons y ys ih =>
      rw [insertLe]
      by_cases h : key x < key y
      · rw [if_pos h]
      · rw [if_neg h]
        exact (List.Perm.cons y ih).trans (List.Perm.swap x y ys)

/-- Helper: the multimap contents permute the inserted rows. -/
theorem sortAsc_fold_perm {α : Type} (key : α → ℚ) :
    ∀ (l acc : List α),
      (l.foldl (fun acc x => insertLe key x acc) acc).Perm (acc ++ l) := by
  intro l
  induction l with
  | nil => intro acc; simp
  | cons x t ih =>
      intro acc
      simp only [List.foldl_cons]
      refine (ih (insertLe key x acc)).trans ?_
      refine (List.Perm.append_right t (insertLe_perm key x acc)).trans ?_
      exact List.perm_middle.symm

/-- Helper: `sortAsc` permutes its input. -/
theorem sortAsc_perm {α : Type} (key : α → ℚ) (l : List α) :
    (sortAsc key l).Perm l := by
  simpa using sortAsc_fold_perm key l []

/-- Helper: the selected rows are an initial segment of the walk. -/
theorem pickRows_prefix (thresh : ℚ) :
    ∀ (l : List BRow) (acc : ℕ), ∃ rest, l = pickRows thresh acc l ++ rest := by
  intro l
  induction l with
  | nil => intro acc; exact ⟨[], rfl⟩
  | cons r rs ih =>
      intro acc
      rw [pickRows]
      by_cases hc : thresh ≤ ((acc + row_total r : ℕ) : ℚ)
      · rw [if_pos hc]
        exact ⟨rs, rfl⟩
      · rw [if_neg hc]
        obtain ⟨rest, hrest⟩ := ih (acc + row_total r)
        exact ⟨rest, by rw [List.cons_append, ← hrest]⟩

/-- Helper: the walk either accumulates past the threshold or consumes
every row. -/
theorem pickRows_sum (thresh : ℚ) :
    ∀ (l : List BRow) (acc : ℕ),
      thresh ≤ ((acc + ((pickRows thresh acc l).map row_total).sum : ℕ) : ℚ)
        ∨ pickRows thresh acc l = l := by
  intro l
  induction l with
  | nil => intro acc; exact Or.inr rfl
  | cons r rs ih =>
      intro acc
      rw [pickRows]
      by_cases hc : thresh ≤ ((acc + row_total r : ℕ) : ℚ)
      · rw [if_pos hc]
        refine Or.inl ?_
        simpa using hc
      · rw [if_neg hc]
        rcases ih (acc + row_total r) with h | h
        · refine Or.inl ?_
          push_cast at h ⊢
          simpa [add_assoc] using h
        · exact Or.inr (by rw [h])

/-- Helper: a clause fires on its own row's input. -/
theorem eval_clause_self (x : List Bool) : eval_clause x x = true := by
  simp [eval_clause]

/-- Helper: a candidate fires wherever one of its clauses is the input. -/
theorem eval_candidate_of_mem {clauses : List (List Bool)} {x : List Bool}
    (h : x ∈ clauses) : eval_candidate clauses x = true := by
  simp only [eval_candidate, List.any_eq_true]
  exact ⟨x, h, eval_clause_self x⟩

/-- Helper: the sum of the selected rows' counts is at most the active
count of the clause set they generate (the selected rows are a prefix
of a permutation of the table, and each fires its own clause). -/
theorem selected_le_active (ctable sorted : List BRow) (hperm : sorted.Perm ctable)
    (p rest : List BRow) (hrest : sorted = p ++ rest) :
    (p.map row_total).sum ≤ active_uncompressed_count ctable (p.map BRow.input) := by
  have hact : active_uncompressed_count ctable (p.map BRow.input)
      = (sorted.map (fun r => if eval_candidate (p.map BRow.input) r.input
          then row_total r else 0)).sum :=
    ((hperm.map _).sum_eq).symm
  rw [hact, hrest, List.map_append, List.sum_append]
  have hmap : p.map (fun r => if eval_candidate (p.map BRow.input) r.input
      then row_total r else 0) = p.map row_total := by
    apply List.map_congr_left
    intro r hr
    rw [eval_candidate_of_mem (List.mem_map_of_mem BRow.input hr)]
    simp
  rw [hmap]
  exact Nat.le_add_right _ _

/-- Helper: walking any permutation of the table with `pickRows` and a
threshold at most the table's total count yields clauses whose active
count reaches the threshold. -/
theorem pickRows_activation (ctable sorted : List BRow) (hperm : sorted.Perm ctable)
    (th : ℚ) (hthle : th ≤ (ctable_usize ctable : ℚ)) :
    th ≤ (active_uncompressed_count ctable
        ((pickRows th 0 sorted).map BRow.input) : ℚ) := by
  obtain ⟨rest, hrest⟩ := pickRows_prefix th sorted 0
  have hBsum := selected_le_active ctable sorted hperm (pickRows th 0 sorted) rest hrest
  rcases pickRows_sum th sorted 0 with h | h
  · have hq : th ≤ (((pickRows th 0 sorted).map row_total).sum : ℚ) := by
      simpa using h
    exact le_trans hq (by exact_mod_cast hBsum)
  · have husize : ((pickRows th 0 sorted).map row_total).sum = ctable_usize ctable := by
      rw [h]
      exact (hperm.map row_total).sum_eq
    refine le_trans hthle ?_
    rw [← husize]
    exact_mod_cast hBsum

/-- C7: for a precision scorer constructed with
`0 < min_activation ≤ max_activation ≤ 1` over a non-empty table, the
candidate synthesized by `gen_canonical_best_candidate()` is true on a
set of rows of total uncompressed count at least
`ctable_usize * min_activation` — its activation reaches the configured
floor. -/
theorem gen_canonical_activation (ctable : List BRow) (positive : Bool)
    (min_activation max_activation : ℚ) (hne : ctable ≠ [])
    (h0 : 0 < min_activation) (h1 : min_activation ≤ max_activation)
    (h2 : max_activation ≤ 1) :
    (ctable_usize ctable : ℚ) * min_activation
      ≤ (active_uncompressed_count ctable
          (gen_canonical_best_candidate positive min_activation ctable) : ℚ) := by
  have hperm :
      ((sortAsc (fun r => precision_sum_outputs positive r / (row_total r : ℚ))
          ctable).reverse).Perm ctable :=
    (List.reverse_perm _).trans
      (sortAsc_perm (fun r => precision_sum_outputs positive r / (row_total r : ℚ))
        ctable)
  have hthle : (ctable_usize ctable : ℚ) * min_activation
      ≤ (ctable_usize ctable : ℚ) :=
    mul_le_of_le_one_right (Nat.cast_nonneg _) (le_trans h1 h2)
  have hgen : gen_canonical_best_candidate positive min_activation ctable
      = (pickRows ((ctable_usize ctable : ℚ) * min_activation) 0
          ((sortAsc (fun r => precision_sum_outputs positive r / (row_total r : ℚ))
            ctable).reverse)).map BRow.input := rfl
  rw [hgen]
  exact pickRows_activation ctable _ hperm _ hthle

/-- Witness for C7: a two-row table with activation floor 3/4. -/
theorem gen_canonical_activation_witness :
    (ctable_usize [⟨[true], 2, 0⟩, ⟨[false], 0, 1⟩] : ℚ) * (3/4)
      ≤ (active_uncompressed_count [⟨[true], 2, 0⟩, ⟨[false], 0, 1⟩]
          (gen_canonical_best_candidate true (3/4)
            [⟨[true], 2, 0⟩, ⟨[false], 0, 1⟩]) : ℚ) :=
  gen_canonical_activation [⟨[true], 2, 0⟩, ⟨[false], 0, 1⟩] true (3/4) (3/4)
    (by simp) (by norm_num) (by norm_num) (by norm_num)

/-- C9: a candidate true on no table row gives exactly precision 1.0 as
the first behavioral-score component — zero hits means perfect
precision, the vacuous-success default, regardless of `worst_norm`,
polarity, the penalty configuration and the Occam settings. -/
theorem precision_op_zero_active (logf : ℚ → WithBot ℚ)
    (positive worst_norm : Bool)
    (min_activation max_activation penalty : ℚ) (occam : Bool)
    (complexity_coef cpx : ℚ) (ctable : List BRow) (f : List Bool → Bool)
    (h : ∀ r ∈ ctable, f r.input = false) :
    (precision_op logf positive worst_norm min_activation max_activation penalty
        occam complexity_coef cpx ctable f).1.head? = some ((1 : ℚ) : WithBot ℚ) := by
  have hfilter : ctable.filter (fun r => f r.input) = [] := by
    rw [List.filter_eq_nil_iff]
    intro r hr
    simp [h r hr]
  simp [precision_op, hfilter, sortAsc, wd_scan]

/-- Witness for C9 on a one-row table and the constant-false candidate. -/
theorem precision_op_zero_active_witness :
    (precision_op logq true true (1/2) (3/4) 2 true 1 5
        [⟨[true], 1, 0⟩] (fun _ => false)).1.head? = some ((1 : ℚ) : WithBot ℚ) :=
  precision_op_zero_active logq true true (1/2) (3/4) 2 true 1 5
    [⟨[true], 1, 0⟩] (fun _ => false) (fun _ _ => rfl)

/-! ### Theorems for C10 (unguarded precision/recall quotients) -/

/-- Helper: a candidate false on every row accumulates nothing into the
positive sums. -/
theorem discriminator_fold_all_false (f : List Bool → Bool) :
    ∀ (l : List BRow) (ctr : d_counts), (∀ r ∈ l, f r.input = false) →
      (l.foldl (discriminator_step f) ctr).true_positive_sum
          = ctr.true_positive_sum ∧
        (l.foldl (discriminator_step f) ctr).false_positive_sum
          = ctr.false_positive_sum := by
  intro l
  induction l with
  | nil => intro ctr _; exact ⟨rfl, rfl⟩
  | cons r t ih =>
      intro ctr hall
      have hfr : f r.input = false := hall r (List.mem_cons_self r t)
      have hstep : discriminator_step f ctr r
          = { ctr with
                true_negative_sum := ctr.true_negative_sum
                  + ((row_total r : ℚ) - (r.tcount : ℚ))
                false_negative_sum := ctr.false_negative_sum + (r.tcount : ℚ)
                negative_count := ctr.negative_count + (row_total r : ℚ) } := by
        simp [discriminator_step, hfr]
      simp only [List.foldl_cons, hstep]
      exact ih _ (fun x hx => hall x (List.mem_cons_of_mem r hx))

/-- Helper: a candidate true on every row of an all-negative table
(every row's true-count 0) accumulates nothing into
`true_positive_sum` or `false_negative_sum`. -/
theorem discriminator_fold_all_true_neg (f : List Bool → Bool) :
    ∀ (l : List BRow) (ctr : d_counts),
      (∀ r ∈ l, f r.input = true) → (∀ r ∈ l, r.tcount = 0) →
      (l.foldl (discriminator_step f) ctr).true_positive_sum
          = ctr.true_positive_sum ∧
        (l.foldl (discriminator_step f) ctr).false_negative_sum
          = ctr.false_negative_sum := by
  intro l
  induction l with
  | nil => intro ctr _ _; exact ⟨rfl, rfl⟩
  | cons r t ih =>
      intro ctr hall hneg
      have hfr : f r.input = true := hall r (List.mem_cons_self r t)
      have hr0 : r.tcount = 0 := hneg r (List.mem_cons_self r t)
      have hstep : discriminator_step f ctr r
          = { ctr with
                true_positive_sum := ctr.true_positive_sum
                false_positive_sum := ctr.false_positive_sum
                  + ((row_total r : ℚ) - (r.tcount : ℚ))
                positive_count := ctr.positive_count + (row_total r : ℚ) } := by
        simp [discriminator_step, hfr, hr0]
      simp only [List.foldl_cons, hstep]
      exact ih _ (fun x hx => hall x (List.mem_cons_of_mem r hx))
        (fun x hx => hneg x (List.mem_cons_of_mem r hx))

/-- C10: `recall_bscore::operator()` on a candidate false on every row
reaches the precision quotient with `true_positive_sum =
false_positive_sum = 0`: an unguarded 0/0 (IEEE NaN), which is then fed
to the precision threshold penalty.  Symmetrically,
`prerec_bscore::operator()` on a candidate true on every row of an
all-negative table reaches the recall quotient as 0/0 and feeds it to
the recall threshold penalty.  Neither installs the vacuous-success
default that `precision_bscore::operator()` installs. -/
theorem recall_prerec_unguarded (logf : ℚ → WithBot ℚ) (mn mx hardness : ℚ)
    (occam : Bool) (complexity_coef cpx : ℚ) (ct1 ct2 : List BRow)
    (hneg : ∀ r ∈ ct2, r.tcount = 0) :
    (discriminator_count ct1 (fun _ => false)).true_positive_sum = 0 ∧
    (discriminator_count ct1 (fun _ => false)).false_positive_sum = 0 ∧
    dc_precision (discriminator_count ct1 (fun _ => false)) = none ∧
    (recall_op logf mn mx hardness occam complexity_coef cpx ct1
        (fun _ => false)).precision_penalty
      = threshold_penalty_nan logf mn mx hardness none ∧
    (discriminator_count ct2 (fun _ => true)).true_positive_sum = 0 ∧
    (discriminator_count ct2 (fun _ => true)).false_negative_sum = 0 ∧
    dc_recall (discriminator_count ct2 (fun _ => true)) = none ∧
    (prerec_op logf mn mx hardness occam complexity_coef cpx ct2
        (fun _ => true)).recall_penalty
      = threshold_penalty_nan logf mn mx hardness none := by
  obtain ⟨htp1, hfp1⟩ :=
    discriminator_fold_all_false (fun _ => false) ct1 ⟨0, 0, 0, 0, 0, 0⟩
      (fun _ _ => rfl)
  obtain ⟨htp2, hfn2⟩ :=
    discriminator_fold_all_true_neg (fun _ => true) ct2 ⟨0, 0, 0, 0, 0, 0⟩
      (fun _ _ => rfl) hneg
  have hprec : dc_precision (discriminator_count ct1 (fun _ => false)) = none := by
    rw [dc_precision, discriminator_count, htp1, hfp1]
    simp [qdiv]
  have hrec : dc_recall (discriminator_count ct2 (fun _ => true)) = none := by
    rw [dc_recall, discriminator_count, htp2, hfn2]
    simp [qdiv]
  refine ⟨?_, ?_, hprec, ?_, ?_, ?_, hrec, ?_⟩
  · rw [discriminator_count]; exact htp1
  · rw [discriminator_count]; exact hfp1
  · rw [recall_op]
    simp only [hprec]
  · rw [discriminator_count]; exact htp2
  · rw [discriminator_count]; exact hfn2
  · rw [prerec_op]
    simp only [hrec]

/-- Witness for C10 on concrete tables: `ct1` has one mixed row, `ct2`
one all-negative row. -/
theorem recall_prerec_unguarded_witness :
    (discriminator_count [⟨[true], 1, 1⟩] (fun _ => false)).true_positive_sum = 0 ∧
    (discriminator_count [⟨[true], 1, 1⟩] (fun _ => false)).false_positive_sum = 0 ∧
    dc_precision (discriminator_count [⟨[true], 1, 1⟩] (fun _ => false)) = none ∧
    (recall_op logq (1/4) (1/2) 2 true 1 5 [⟨[true], 1, 1⟩]
        (fun _ => false)).precision_penalty
      = threshold_penalty_nan logq (1/4) (1/2) 2 none ∧
    (discriminator_count [⟨[true], 0, 2⟩] (fun _ => true)).true_positive_sum = 0 ∧
    (discriminator_count [⟨[true], 0, 2⟩] (fun _ => true)).false_negative_sum = 0 ∧
    dc_recall (discriminator_count [⟨[true], 0, 2⟩] (fun _ => true)) = none ∧
    (prerec_op logq (1/4) (1/2) 2 true 1 5 [⟨[true], 0, 2⟩]
        (fun _ => true)).recall_penalty
      = threshold_penalty_nan logq (1/4) (1/2) 2 none :=
  recall_prerec_unguarded logq (1/4) (1/2) 2 true 1 5
    [⟨[true], 1, 1⟩] [⟨[true], 0, 2⟩] (by decide)

end Scoring
